import Mathlib

/-!
Shallow embedding of `fastai/train.py` (training extensions: one-cycle fit,
learning-rate finder, mixed precision, mixup, gradient clipping, and the
`ClassificationInterpretation` helper), with theorems settling the spec claims.

Framework collaborators (`basic_train.Learner.fit`, `torch_core.model2half`,
`core.listify`, `nn.utils.clip_grad_norm_`, ...) are not part of the source
file; they are modelled from the spec as explicit data (events / wrapper
constructors), as documented on each such definition.  Python floats are
modelled as rationals, tensors of class scores as lists of integers (only
their ordering matters to the claims).
-/

namespace FastaiTrain

/-! ## Framework data model -/

/-- Modelled from the spec: tensor precision mode.  The module toggles models
between full (FP32) and half (FP16) precision. -/
inductive Dtype where
  | f32
  | f16
deriving DecidableEq, Repr

/-- Modelled from the spec: a neural-network model handle, reduced to an
identity and its floating-point precision (the only state this module touches). -/
structure Model where
  id : Nat
  dtype : Dtype
deriving DecidableEq, Repr

/-- Modelled from the spec: `torch_core.model2half` puts a model in FP16
precision mode. -/
def model2half (m : Model) : Model := { m with dtype := Dtype.f16 }

/-- Modelled from the spec: `model.float()` puts a model back in FP32
precision mode. -/
def Model.float (m : Model) : Model := { m with dtype := Dtype.f32 }

/-- Modelled from the spec: a batch transform attached to a data loader;
`batch_to_half` is the transform that mixed precision installs. -/
inductive Tfm where
  | batch_to_half
  | other (id : Nat)
deriving DecidableEq, Repr

/-- Modelled from the spec: a data loader, reduced to its batch transforms and
its length (number of batches per epoch). -/
structure DataLoader where
  tfms : List Tfm
  len : Nat
deriving DecidableEq, Repr

/-- Modelled from the spec: `DeviceDataLoader.remove_tfm` removes a transform
from the loader (first occurrence, as Python `list.remove` would). -/
def DataLoader.remove_tfm (dl : DataLoader) (t : Tfm) : DataLoader :=
  { dl with tfms := dl.tfms.erase t }

/-- Modelled from the spec: a `DataBunch`.  `valid_dl`/`test_dl` are `none`
when the attribute is absent or set to `None`. -/
structure DataBunch where
  train_dl : DataLoader
  valid_dl : Option DataLoader
  test_dl : Option DataLoader
  c : Nat
deriving DecidableEq, Repr

/-- Modelled from the spec: a callback instance stored in `learn.callbacks`.
`MixedPrecision` is the one this module adds and removes; distinct instances
carry distinct ids (Python object identity). -/
inductive Callback where
  | mixedPrecision (id : Nat) (loss_scale : ℚ) (flat_master : Bool)
  | other (id : Nat)
deriving DecidableEq, Repr

/-- `isinstance(cb, MixedPrecision)` on the modelled callback type. -/
def Callback.isMixedPrecision : Callback → Bool
  | Callback.mixedPrecision _ _ _ => true
  | Callback.other _ => false

/-- Modelled from the spec: a callback factory stored in `learn.callback_fns`
(a `functools partial application` of a callback class with its configuration
keywords held as plain fields). -/
inductive CallbackFn where
  | mixUpCallback (alpha : ℚ) (stack_x : Bool) (stack_y : Bool)
  | gradientClippingFn (clip : ℚ)
  | other (id : Nat)
deriving DecidableEq, Repr

/-- The `alpha` keyword held by a `MixUpCallback` factory, if any. -/
def CallbackFn.alpha? : CallbackFn → Option ℚ
  | CallbackFn.mixUpCallback a _ _ => some a
  | _ => none

/-- Modelled from the spec: a loss function; `MixUpLoss` wraps the previous
criterion. -/
inductive LossFunc where
  | base (id : Nat)
  | mixUpLoss (crit : LossFunc)
deriving DecidableEq, Repr

/-- Modelled from the spec: a learning-rate specification as passed by the
user (a single value or a slice of values). -/
inductive LrSpec where
  | val (x : ℚ)
  | slice (lo : Option ℚ) (hi : ℚ)
deriving DecidableEq, Repr

/-- Modelled from the spec: the result of the learning-rate-range helper
`learn.lr_range`, which resolves a user specification against the learner's
layer groups. -/
inductive LrResolved where
  | resolved (learnId : Nat) (spec : LrSpec)
deriving DecidableEq, Repr

/-- Modelled from the spec: a callback instance passed in a `callbacks` list
to `learn.fit` (the `OneCycleScheduler` and `LRFinder` this module
constructs, or an arbitrary user callback). -/
inductive CbInst where
  | oneCycleScheduler (learnId : Nat) (lr_max : LrResolved) (moms : ℚ × ℚ)
      (div_factor : ℚ) (pct_start : ℚ)
  | lrFinder (learnId : Nat) (start_lr : LrResolved) (end_lr : LrResolved)
      (num_it : Nat) (stop_div : Bool)
  | user (id : Nat)
deriving DecidableEq, Repr

/-- Modelled from the spec: `core.listify` turns an optional callbacks
argument into a list (`None` becomes the empty list). -/
def listify : Option (List CbInst) → List CbInst
  | none => []
  | some l => l

/-- Modelled from the spec: the trainer object.  `id` is Python object
identity; the other fields are the attributes `train.py` reads or writes. -/
structure Learner where
  id : Nat
  model : Model
  loss_func : LossFunc
  callbacks : List Callback
  callback_fns : List CallbackFn
  mp_cb : Option Callback
  data : DataBunch
deriving DecidableEq, Repr

/-- Modelled from the spec: the learning-rate-range helper consumed from the
framework; it resolves a specification for this learner. -/
def Learner.lr_range (learn : Learner) (lr : LrSpec) : LrResolved :=
  LrResolved.resolved learn.id lr

/-- A recorded call to the framework's `learn.fit` (epochs, learning rate,
weight decay, callbacks list). -/
structure FitCall where
  epochs : Nat
  lr : LrResolved
  wd : Option ℚ
  callbacks : List CbInst
deriving DecidableEq, Repr

/-- Modelled from the spec: `basic_train.Learner.fit` delegates the actual
training mechanics to the framework; the embedding records the call. -/
def Learner.fit (learn : Learner) (epochs : Nat) (lr : LrResolved)
    (wd : Option ℚ) (callbacks : List CbInst) : List FitCall :=
  let _ := learn
  [⟨epochs, lr, wd, callbacks⟩]

/-! ## `train.py` operations -/

/-- `fit_one_cycle`: resolve `max_lr`, listify the user callbacks, append a
newly constructed `OneCycleScheduler`, and delegate to `learn.fit`.  The
returned list is the trace of `fit` calls made. -/
def fit_one_cycle (learn : Learner) (cyc_len : Nat) (max_lr : LrSpec)
    (moms : ℚ × ℚ) (div_factor : ℚ) (pct_start : ℚ) (wd : Option ℚ)
    (callbacks : Option (List CbInst)) : List FitCall :=
  let max_lr := learn.lr_range max_lr
  let callbacks := listify callbacks
  let callbacks := callbacks ++
    [CbInst.oneCycleScheduler learn.id max_lr moms div_factor pct_start]
  learn.fit cyc_len max_lr wd callbacks

/-- `int(np.ceil(a / b))` for natural `a`, `b` (exact rational ceiling;
the source computes it through a float division). -/
def npCeilDiv (a b : Nat) : Nat := (a + b - 1) / b

/-- `lr_find`: resolve the learning-rate bounds, build an `LRFinder`
callback, and fit for `int(np.ceil(num_it/len(learn.data.train_dl)))`
epochs.  The returned list is the trace of `fit` calls made. -/
def lr_find (learn : Learner) (start_lr end_lr : LrSpec) (num_it : Nat)
    (stop_div : Bool) : List FitCall :=
  let start_lr := learn.lr_range start_lr
  let end_lr := learn.lr_range end_lr
  let cb := CbInst.lrFinder learn.id start_lr end_lr num_it stop_div
  let a := npCeilDiv num_it learn.data.train_dl.len
  learn.fit a start_lr none [cb]

/-- `to_fp16`: halve the model, store a fresh `MixedPrecision` callback in
`learn.mp_cb`, append it to `learn.callbacks`, return `learn`.  `cbId`
models the Python object identity of the newly created callback. -/
def to_fp16 (learn : Learner) (loss_scale : ℚ) (flat_master : Bool)
    (cbId : Nat) : Learner :=
  let learn := { learn with model := model2half learn.model }
  let cb := Callback.mixedPrecision cbId loss_scale flat_master
  let learn := { learn with mp_cb := some cb }
  { learn with callbacks := learn.callbacks ++ [cb] }

/-- The Python loop `for cb in learn.callbacks: if isinstance(cb,
MixedPrecision): learn.callbacks.remove(cb)`, embedded faithfully: an index
scan over a list that is mutated (by `list.remove`, i.e. erase the first
occurrence) while being iterated.  The interpreter's `for` advances its
internal index after every iteration, including ones whose body removed the
current element.  The `fuel` argument only bounds the number of iterations
so that the recursion is structural: since the index grows by one each
iteration and the list never grows, the loop performs at most as many
iterations as the list initially has elements. -/
def pyRemoveScanAux (p : Callback → Bool) :
    Nat → Nat → List Callback → List Callback
  | 0, _, l => l
  | fuel + 1, i, l =>
    if h : i < l.length then
      let cb := l.get ⟨i, h⟩
      if p cb then pyRemoveScanAux p fuel (i + 1) (l.erase cb)
      else pyRemoveScanAux p fuel (i + 1) l
    else l

/-- The removal loop of `to_fp32`, started at index `0` with enough fuel. -/
def pyRemoveScan (p : Callback → Bool) (l : List Callback) : List Callback :=
  pyRemoveScanAux p l.length 0 l

/-- `to_fp32`: remove `batch_to_half` from the train loader (and the valid /
test loaders when present and not `None`), run the callback-removal loop,
put the model back in FP32, return `learn`. -/
def to_fp32 (learn : Learner) : Learner :=
  let data := { learn.data with
    train_dl := learn.data.train_dl.remove_tfm Tfm.batch_to_half }
  let data := match data.valid_dl with
    | some dl => { data with valid_dl := some (dl.remove_tfm Tfm.batch_to_half) }
    | none => data
  let data := match data.test_dl with
    | some dl => { data with test_dl := some (dl.remove_tfm Tfm.batch_to_half) }
    | none => data
  let callbacks := pyRemoveScan Callback.isMixedPrecision learn.callbacks
  { learn with data := data, callbacks := callbacks,
               model := learn.model.float }

/-- `mixup`: when `stack_y`, wrap the loss function in a `MixUpLoss`; always
append a `MixUpCallback` factory holding `alpha`, `stack_x`, `stack_y`;
return `learn`. -/
def mixup (learn : Learner) (alpha : ℚ) (stack_x : Bool) (stack_y : Bool) :
    Learner :=
  let learn := if stack_y
    then { learn with loss_func := LossFunc.mixUpLoss learn.loss_func }
    else learn
  { learn with callback_fns := learn.callback_fns ++
      [CallbackFn.mixUpCallback alpha stack_x stack_y] }

/-- Python truthiness of a float: `if x:` runs the branch iff `x != 0`. -/
def pyTruthy (x : ℚ) : Bool := decide (x ≠ 0)

/-- Modelled from the spec: the model's parameter gradients, abstract except
for the clipping applied to them.  `clippedByNorm` marks one application of
the framework's clip-by-global-norm primitive. -/
inductive Grads where
  | raw (id : Nat)
  | clippedByNorm (g : Grads) (max_norm : ℚ)
deriving DecidableEq, Repr

/-- Modelled from the spec: `nn.utils.clip_grad_norm_` clips gradients by
global norm to `max_norm`. -/
def clip_grad_norm (g : Grads) (max_norm : ℚ) : Grads :=
  Grads.clippedByNorm g max_norm

/-- The `GradientClipping` callback: `__init__` keeps the learner (its
identity here) and stores `clip`. -/
structure GradientClipping where
  learn_id : Nat
  clip : ℚ
deriving DecidableEq, Repr

/-- `GradientClipping.__init__(learn, clip)`. -/
def GradientClipping.init (learn : Learner) (clip : ℚ) : GradientClipping :=
  ⟨learn.id, clip⟩

/-- `GradientClipping.on_backward_end`: `if self.clip:
nn.utils.clip_grad_norm_(self.learn.model.parameters(), self.clip)`. -/
def GradientClipping.on_backward_end (cb : GradientClipping) (g : Grads) :
    Grads :=
  if pyTruthy cb.clip then clip_grad_norm g cb.clip else g

/-- `clip_grad`: append a `GradientClipping` factory holding `clip`,
return `learn`. -/
def clip_grad (learn : Learner) (clip : ℚ) : Learner :=
  { learn with callback_fns := learn.callback_fns ++
      [CallbackFn.gradientClippingFn clip] }

/-! ## `ClassificationInterpretation`

Tensors indexed by two class indices are embedded as functions
`Nat → Nat → Nat`; they represent the `c × c` tensor of the source on
indices `< c` (the only ones the source ever reads). -/

/-- `ClassificationInterpretation.__init__` stores `data`, `probs`,
`y_true`, `losses`.  `probs` rows are class scores (only their order
matters, so integers stand in for floats). -/
structure ClassificationInterpretation where
  data : DataBunch
  probs : List (List Int)
  y_true : List Nat
  losses : List ℚ

/-- `argmax` along a row of scores: index of the first maximal entry
(torch.argmax returns the index of the first occurrence of the maximum). -/
def argmaxAux : List Int → Nat → Nat → Int → Nat
  | [], _, best_i, _ => best_i
  | x :: xs, i, best_i, best_v =>
    if best_v < x then argmaxAux xs (i + 1) i x
    else argmaxAux xs (i + 1) best_i best_v

/-- `argmax` of one row (`dim=1` of the probs tensor). -/
def argmax1 : List Int → Nat
  | [] => 0
  | x :: xs => argmaxAux xs 1 0 x

/-- `self.pred_class = self.probs.argmax(dim=1)` (set in `__init__`). -/
def ClassificationInterpretation.pred_class
    (ci : ClassificationInterpretation) : List Nat :=
  ci.probs.map argmax1

/-- One summand of the loop body of `confusion_matrix`: entry `(t, j)` of
`((pred_class[i:i+1]==x[:,None]) & (y_true[i:i+1]==x[:,None,None])).sum(2)`,
i.e. `1` iff sample `i` has predicted class `j` and true label `t`. -/
def cmSliceEntry (y p t j : Nat) : Nat := if p = j ∧ y = t then 1 else 0

/-- `confusion_matrix`: start from `torch.zeros(c, c)` and add the slice of
each sample in turn. -/
def ClassificationInterpretation.confusion_matrix
    (ci : ClassificationInterpretation) : Nat → Nat → Nat :=
  (ci.y_true.zip ci.pred_class).foldl
    (fun cm yp t j => cm t j + cmSliceEntry yp.1 yp.2 t j)
    (fun _ _ => 0)

/-- The comparison implemented by `sorted(res, key=itemgetter(2),
reverse=True)`: descending order on the third component (the count).
Python's `sorted` is stable, and `List.insertionSort` with this relation is
the stable descending sort. -/
def sortKeyGE (a b : Nat × Nat × Nat) : Prop := b.2.2 ≤ a.2.2

instance : DecidableRel sortKeyGE := fun _ _ => Nat.decLe _ _

instance : IsTotal (Nat × Nat × Nat) sortKeyGE :=
  ⟨fun a b => Nat.le_total b.2.2 a.2.2⟩

instance : IsTrans (Nat × Nat × Nat) sortKeyGE :=
  ⟨fun _ _ _ h1 h2 => Nat.le_trans h2 h1⟩

/-- `most_confused`: zero the diagonal, collect `(i, j, cm[i, j])` for the
entries `> min_val` in row-major order (`np.where`), and sort by count
descending. -/
def ClassificationInterpretation.most_confused
    (ci : ClassificationInterpretation) (min_val : Int) :
    List (Nat × Nat × Nat) :=
  let cm := ci.confusion_matrix
  let cm := fun t j => if t = j then 0 else cm t j
  let res := (List.range ci.data.c).flatMap (fun i =>
    (List.range ci.data.c).filterMap (fun j =>
      if min_val < (cm i j : Int) then some (i, j, cm i j) else none))
  List.insertionSort sortKeyGE res

/-- Sum of row `i` of a `c × c` confusion matrix. -/
def rowSum (cm : Nat → Nat → Nat) (c i : Nat) : Nat :=
  ∑ j ∈ Finset.range c, cm i j

/-- Sum of column `j` of a `c × c` confusion matrix. -/
def colSum (cm : Nat → Nat → Nat) (c j : Nat) : Nat :=
  ∑ t ∈ Finset.range c, cm t j

/-! ## Concrete fixtures (used to evaluate theorems with hypotheses and to
exhibit counterexamples) -/

/-- A concrete learner. -/
def learnerEx : Learner :=
  { id := 7, model := ⟨3, Dtype.f32⟩, loss_func := LossFunc.base 5,
    callbacks := [Callback.other 11], callback_fns := [CallbackFn.other 4],
    mp_cb := none,
    data := { train_dl := ⟨[], 3⟩, valid_dl := none, test_dl := none, c := 2 } }

/-- A learner put in FP16 mode twice: its callback list ends with two
adjacent `MixedPrecision` instances. -/
def learnerTwiceFp16 : Learner :=
  to_fp16 (to_fp16 learnerEx 512 false 21) 512 false 22

/-- A concrete interpretation: two classes, three samples, predictions
`[0, 1, 1]`, all correct. -/
def interpEx : ClassificationInterpretation :=
  { data := { train_dl := ⟨[], 3⟩, valid_dl := none, test_dl := none, c := 2 },
    probs := [[3, 1], [0, 2], [2, 5]], y_true := [0, 1, 1], losses := [] }

/-- A concrete interpretation with one misclassification: true labels
`[0, 1]`, predictions `[1, 1]`. -/
def interpEx2 : ClassificationInterpretation :=
  { data := { train_dl := ⟨[], 3⟩, valid_dl := none, test_dl := none, c := 2 },
    probs := [[1, 3], [0, 2]], y_true := [0, 1], losses := [] }

/-! ## Fuel adequacy for the removal loop -/

/-- Spending more fuel than there are positions left changes nothing: the
index grows every iteration while the list never grows, so
`pyRemoveScanAux` with fuel `l.length - i` already runs the loop to
completion. -/
theorem pyRemoveScanAux_fuel_drop (p : Callback → Bool) :
    ∀ (fuel i : Nat) (l : List Callback), l.length ≤ fuel + i →
      pyRemoveScanAux p (fuel + 1) i l = pyRemoveScanAux p fuel i l := by
  intro fuel
  induction fuel with
  | zero =>
    intro i l hle
    simp only [pyRemoveScanAux]
    split
    · omega
    · rfl
  | succ fuel ih =>
    intro i l hle
    by_cases h : i < l.length
    · have hget : l.get ⟨i, h⟩ ∈ l := l.get_mem i h
      have herase := List.length_erase_of_mem hget
      by_cases hp : p (l.get ⟨i, h⟩)
      · have e1 : pyRemoveScanAux p (fuel + 1 + 1) i l
            = pyRemoveScanAux p (fuel + 1) (i + 1) (l.erase (l.get ⟨i, h⟩)) := by
          conv_lhs => rw [pyRemoveScanAux]
          simp only [dif_pos h, if_pos hp]
        have e2 : pyRemoveScanAux p (fuel + 1) i l
            = pyRemoveScanAux p fuel (i + 1) (l.erase (l.get ⟨i, h⟩)) := by
          conv_lhs => rw [pyRemoveScanAux]
          simp only [dif_pos h, if_pos hp]
        rw [e1, e2]
        exact ih (i + 1) _ (by omega)
      · have e1 : pyRemoveScanAux p (fuel + 1 + 1) i l
            = pyRemoveScanAux p (fuel + 1) (i + 1) l := by
          conv_lhs => rw [pyRemoveScanAux]
          simp only [dif_pos h, if_neg hp]
        have e2 : pyRemoveScanAux p (fuel + 1) i l
            = pyRemoveScanAux p fuel (i + 1) l := by
          conv_lhs => rw [pyRemoveScanAux]
          simp only [dif_pos h, if_neg hp]
        rw [e1, e2]
        exact ih (i + 1) l (by omega)
    · have e1 : pyRemoveScanAux p (fuel + 1 + 1) i l = l := by
        conv_lhs => rw [pyRemoveScanAux]
        simp only [dif_neg h]
      have e2 : pyRemoveScanAux p (fuel + 1) i l = l := by
        conv_lhs => rw [pyRemoveScanAux]
        simp only [dif_neg h]
      rw [e1, e2]

/-! ## Claim theorems -/

/-- C6: `fit_one_cycle` attaches the one-cycle policy and delegates: it
performs exactly one call to `learn.fit`, with `cyc_len` epochs, the
resolved `max_lr`, and a callbacks list that is the listified user
callbacks followed by exactly one newly constructed `OneCycleScheduler`
(the user's callbacks are preserved in order, `None` becomes the empty
list). -/
theorem fit_one_cycle_delegates_once (learn : Learner) (cyc_len : Nat)
    (max_lr : LrSpec) (moms : ℚ × ℚ) (div_factor pct_start : ℚ)
    (wd : Option ℚ) (callbacks : Option (List CbInst)) :
    fit_one_cycle learn cyc_len max_lr moms div_factor pct_start wd
        callbacks =
      [{ epochs := cyc_len, lr := learn.lr_range max_lr, wd := wd,
         callbacks := listify callbacks ++
           [CbInst.oneCycleScheduler learn.id (learn.lr_range max_lr) moms
              div_factor pct_start] }] := rfl

/-- C3: `mixup` with `stack_y = true` replaces `learn.loss_func` with a
`MixUpLoss` wrapping the previous loss function and with `stack_y = false`
leaves it unchanged; in both cases it appends exactly one `MixUpCallback`
factory to `learn.callback_fns`, and no other field of the learner is
modified. -/
theorem mixup_swaps_loss_and_appends_factory (learn : Learner) (alpha : ℚ)
    (stack_x stack_y : Bool) :
    (mixup learn alpha stack_x stack_y).loss_func =
      (if stack_y then LossFunc.mixUpLoss learn.loss_func
       else learn.loss_func) ∧
    (mixup learn alpha stack_x stack_y).callback_fns =
      learn.callback_fns ++ [CallbackFn.mixUpCallback alpha stack_x stack_y] ∧
    (mixup learn alpha stack_x stack_y).id = learn.id ∧
    (mixup learn alpha stack_x stack_y).model = learn.model ∧
    (mixup learn alpha stack_x stack_y).callbacks = learn.callbacks ∧
    (mixup learn alpha stack_x stack_y).mp_cb = learn.mp_cb ∧
    (mixup learn alpha stack_x stack_y).data = learn.data := by
  cases stack_y <;> simp [mixup]

/-- C4, counterexample: `to_fp16` does not merely attach callback
configuration — it switches the learner's model to half precision, so the
`model` field of the returned learner differs from the one passed in. -/
theorem to_fp16_modifies_model :
    (to_fp16 learnerEx 512 false 21).model ≠ learnerEx.model := by
  decide

/-- C4, amended: each helper returns the very same learner object that was
passed in (same object identity); `mixup` and `clip_grad` touch only loss
and callback configuration, while `to_fp16` and `to_fp32` additionally
switch the model's precision, the mixed-precision handle and (for
`to_fp32`) the data-loader transforms. -/
theorem attach_helpers_return_same_learner :
    (∀ (learn : Learner) (loss_scale : ℚ) (flat_master : Bool) (cbId : Nat),
      (to_fp16 learn loss_scale flat_master cbId).id = learn.id ∧
      (to_fp16 learn loss_scale flat_master cbId).loss_func = learn.loss_func ∧
      (to_fp16 learn loss_scale flat_master cbId).callback_fns =
        learn.callback_fns ∧
      (to_fp16 learn loss_scale flat_master cbId).data = learn.data) ∧
    (∀ learn : Learner,
      (to_fp32 learn).id = learn.id ∧
      (to_fp32 learn).loss_func = learn.loss_func ∧
      (to_fp32 learn).callback_fns = learn.callback_fns ∧
      (to_fp32 learn).mp_cb = learn.mp_cb) ∧
    (∀ (learn : Learner) (alpha : ℚ) (stack_x stack_y : Bool),
      (mixup learn alpha stack_x stack_y).id = learn.id ∧
      (mixup learn alpha stack_x stack_y).model = learn.model ∧
      (mixup learn alpha stack_x stack_y).callbacks = learn.callbacks ∧
      (mixup learn alpha stack_x stack_y).mp_cb = learn.mp_cb ∧
      (mixup learn alpha stack_x stack_y).data = learn.data) ∧
    (∀ (learn : Learner) (clip : ℚ),
      (clip_grad learn clip).id = learn.id ∧
      (clip_grad learn clip).model = learn.model ∧
      (clip_grad learn clip).loss_func = learn.loss_func ∧
      (clip_grad learn clip).callbacks = learn.callbacks ∧
      (clip_grad learn clip).mp_cb = learn.mp_cb ∧
      (clip_grad learn clip).data = learn.data ∧
      (clip_grad learn clip).callback_fns =
        learn.callback_fns ++ [CallbackFn.gradientClippingFn clip]) := by
  refine ⟨fun learn ls fm cbId => ?_, fun learn => ?_,
          fun learn alpha sx sy => ?_, fun learn c => ?_⟩
  · exact ⟨rfl, rfl, rfl, rfl⟩
  · exact ⟨rfl, rfl, rfl, rfl⟩
  · cases sy <;> exact ⟨rfl, rfl, rfl, rfl, rfl⟩
  · exact ⟨rfl, rfl, rfl, rfl, rfl, rfl, rfl⟩

/-- C5: the helpers only introduce plain configuration fields on thin
wrapper objects: `GradientClipping.__init__` stores the clip value
unchanged in `self.clip`, and `mixup` stores `alpha` as a plain keyword
field on the `MixUpCallback` factory it appends. -/
theorem callback_config_stored_as_plain_fields (learn : Learner)
    (clip alpha : ℚ) (stack_x stack_y : Bool) :
    (GradientClipping.init learn clip).clip = clip ∧
    (mixup learn alpha stack_x stack_y).callback_fns.getLast? =
      some (CallbackFn.mixUpCallback alpha stack_x stack_y) ∧
    (CallbackFn.mixUpCallback alpha stack_x stack_y).alpha? = some alpha := by
  refine ⟨rfl, ?_, rfl⟩
  cases stack_y <;> simp [mixup]

/-- C7: `on_backward_end` clips the gradients by global norm to the stored
threshold when `self.clip` is nonzero, and performs no clipping call
(gradients are returned untouched) when `self.clip` is zero. -/
theorem gradient_clipping_backward_end (cb : GradientClipping) (g : Grads) :
    (cb.clip = 0 → cb.on_backward_end g = g) ∧
    (cb.clip ≠ 0 → cb.on_backward_end g = clip_grad_norm g cb.clip) := by
  constructor <;> intro h <;>
    simp [GradientClipping.on_backward_end, pyTruthy, h]

/-- C7, witness: the theorem evaluated at concrete callbacks with `clip = 0`
and `clip = 2`. -/
theorem gradient_clipping_backward_end_eval :
    (GradientClipping.mk 0 0).on_backward_end (Grads.raw 0) = Grads.raw 0 ∧
    (GradientClipping.mk 0 2).on_backward_end (Grads.raw 0) =
      clip_grad_norm (Grads.raw 0) 2 :=
  ⟨(gradient_clipping_backward_end ⟨0, 0⟩ (Grads.raw 0)).1 rfl,
   (gradient_clipping_backward_end ⟨0, 2⟩ (Grads.raw 0)).2 (by norm_num)⟩

/-- C9: the removal loop of `to_fp32` mutates `learn.callbacks` while
iterating over it, so of two adjacent `MixedPrecision` callbacks (as
produced by calling `to_fp16` twice) the second survives the call — the
code contradicts the documented intent of putting the learner fully back
in FP32 mode. -/
theorem to_fp32_keeps_adjacent_mixed_precision :
    (to_fp32 learnerTwiceFp16).callbacks =
      [Callback.other 11, Callback.mixedPrecision 22 512 false] ∧
    Callback.isMixedPrecision (Callback.mixedPrecision 22 512 false) = true := by
  constructor
  · decide
  · rfl

/-- The value `(a + b - 1) / b` computed by `lr_find` is the exact ceiling
of `a / b`: it is the least number of epochs whose total iteration count
reaches `a`. -/
theorem npCeilDiv_spec (a b : Nat) (hb : 0 < b) (ha : 0 < a) :
    a ≤ npCeilDiv a b * b ∧ (npCeilDiv a b - 1) * b < a := by
  unfold npCeilDiv
  have h1 := Nat.div_add_mod (a + b - 1) b
  have h2 : (a + b - 1) % b < b := Nat.mod_lt _ hb
  rw [Nat.sub_one_mul, Nat.mul_comm]
  generalize hq : (a + b - 1) / b = q at *
  generalize hr : (a + b - 1) % b = r at *
  generalize hm : b * q = m at *
  omega

/-- C10: `lr_find` calls `learn.fit` exactly once, for
`ceil(num_it / len(train_dl))` epochs — the least epoch count whose
scheduled iterations reach `num_it` — so the scheduled number of training
iterations is at least `num_it`. -/
theorem lr_find_epochs_ceil (learn : Learner) (start_lr end_lr : LrSpec)
    (num_it : Nat) (stop_div : Bool)
    (hlen : 0 < learn.data.train_dl.len) (hnum : 0 < num_it) :
    lr_find learn start_lr end_lr num_it stop_div =
      [{ epochs := npCeilDiv num_it learn.data.train_dl.len,
         lr := learn.lr_range start_lr, wd := none,
         callbacks := [CbInst.lrFinder learn.id (learn.lr_range start_lr)
           (learn.lr_range end_lr) num_it stop_div] }] ∧
    num_it ≤ npCeilDiv num_it learn.data.train_dl.len *
      learn.data.train_dl.len ∧
    (npCeilDiv num_it learn.data.train_dl.len - 1) *
      learn.data.train_dl.len < num_it := by
  refine ⟨rfl, ?_, ?_⟩
  · exact (npCeilDiv_spec num_it _ hlen hnum).1
  · exact (npCeilDiv_spec num_it _ hlen hnum).2

/-- C10, witness: the theorem evaluated at a learner whose train loader has
3 batches and `num_it = 100`, giving `ceil(100/3) = 34` epochs. -/
theorem lr_find_epochs_ceil_eval :
    lr_find learnerEx (LrSpec.val 1) (LrSpec.val 10) 100 true =
      [{ epochs := 34, lr := learnerEx.lr_range (LrSpec.val 1), wd := none,
         callbacks := [CbInst.lrFinder learnerEx.id
           (learnerEx.lr_range (LrSpec.val 1))
           (learnerEx.lr_range (LrSpec.val 10)) 100 true] }] ∧
    100 ≤ 34 * learnerEx.data.train_dl.len :=
  ⟨(lr_find_epochs_ceil learnerEx (LrSpec.val 1) (LrSpec.val 10) 100 true
      (by decide) (by decide)).1,
   (lr_find_epochs_ceil learnerEx (LrSpec.val 1) (LrSpec.val 10) 100 true
      (by decide) (by decide)).2.1⟩

/-! ## Confusion-matrix lemmas -/

/-- Each entry of the folded matrix is the initial entry plus the number of
samples whose (label, prediction) pair hits that cell. -/
theorem confusion_foldl_entry (pairs : List (Nat × Nat))
    (M : Nat → Nat → Nat) (t j : Nat) :
    (pairs.foldl (fun cm yp a b => cm a b + cmSliceEntry yp.1 yp.2 a b) M) t j
      = M t j + pairs.countP (fun yp => decide (yp.1 = t ∧ yp.2 = j)) := by
  induction pairs generalizing M with
  | nil => simp
  | cons x xs ih =>
    rw [List.foldl_cons, ih, List.countP_cons]
    by_cases h1 : x.1 = t <;> by_cases h2 : x.2 = j <;>
      simp [cmSliceEntry, h1, h2] <;> omega

/-- Counting list elements satisfying `p` is counting the indices whose
element satisfies `p`. -/
theorem countP_eq_card_filter_range {α : Type} (l : List α) (p : α → Bool)
    (d : α) :
    l.countP p =
      ((Finset.range l.length).filter (fun k => p (l.getD k d) = true)).card := by
  induction l using List.reverseRecOn with
  | nil => simp
  | append_singleton xs x ih =>
    rw [List.countP_append, ih]
    have hgx : (xs ++ [x]).getD xs.length d = x := by
      rw [List.getD_append_right xs [x] d xs.length (Nat.le_refl _)]
      simp
    have hfc : (Finset.range xs.length).filter
          (fun k => p ((xs ++ [x]).getD k d) = true)
        = (Finset.range xs.length).filter (fun k => p (xs.getD k d) = true) := by
      apply Finset.filter_congr
      intro k hk
      rw [Finset.mem_range] at hk
      rw [List.getD_append xs [x] d k hk]
    rw [List.length_append, List.length_singleton, Finset.range_succ,
      Finset.filter_insert, hgx]
    by_cases hx : p x = true
    · rw [if_pos hx, Finset.card_insert_of_not_mem (by simp), hfc]
      simp [hx]
    · rw [if_neg hx, hfc]
      simp [List.countP_cons, hx]

/-- `getD` on a zip of equal-length lists is the pair of the `getD`s. -/
theorem zip_getD_lt (a b : List Nat) (k : Nat) (h : k < (a.zip b).length) :
    (a.zip b).getD k (0, 0) = (a.getD k 0, b.getD k 0) := by
  induction a generalizing b k with
  | nil => simp at h
  | cons x xs ih =>
    cases b with
    | nil => simp at h
    | cons y ys =>
      cases k with
      | zero => rfl
      | succ m =>
        have hm : m < (xs.zip ys).length := by
          simpa [List.length_zip] using h
        simpa using ih ys m hm

/-- Summing the per-cell counts of a row over all `c` columns counts the
samples whose label is `t` and whose prediction lands below `c`. -/
theorem countP_sum_snd (pairs : List (Nat × Nat)) (c t : Nat) :
    ∑ j ∈ Finset.range c,
        pairs.countP (fun yp => decide (yp.1 = t ∧ yp.2 = j)) =
      pairs.countP (fun yp => decide (yp.1 = t ∧ yp.2 < c)) := by
  induction pairs with
  | nil => simp
  | cons x xs ih =>
    simp only [List.countP_cons]
    rw [Finset.sum_add_distrib, ih]
    congr 1
    simp only [decide_eq_true_eq]
    by_cases h1 : x.1 = t
    · simp only [h1, true_and]
      rw [Finset.sum_ite_eq (Finset.range c) x.2 (fun _ => 1)]
      simp [Finset.mem_range]
    · simp [h1]

/-- Summing the per-cell counts of a column over all `c` rows counts the
samples whose prediction is `j` and whose label lands below `c`. -/
theorem countP_sum_fst (pairs : List (Nat × Nat)) (c j : Nat) :
    ∑ t ∈ Finset.range c,
        pairs.countP (fun yp => decide (yp.1 = t ∧ yp.2 = j)) =
      pairs.countP (fun yp => decide (yp.1 < c ∧ yp.2 = j)) := by
  induction pairs with
  | nil => simp
  | cons x xs ih =>
    simp only [List.countP_cons]
    rw [Finset.sum_add_distrib, ih]
    congr 1
    simp only [decide_eq_true_eq]
    by_cases h2 : x.2 = j
    · simp only [h2, and_true]
      rw [Finset.sum_ite_eq (Finset.range c) x.1 (fun _ => 1)]
      simp [Finset.mem_range]
    · simp [h2]

/-- Counting by a property of the first components of a zip is counting on
the first list (when the second list is at least as long). -/
theorem countP_zip_fst (a b : List Nat) (p : Nat → Bool)
    (h : a.length ≤ b.length) :
    (a.zip b).countP (fun yp => p yp.1) = a.countP p := by
  induction a generalizing b with
  | nil => simp
  | cons x xs ih =>
    cases b with
    | nil => simp at h
    | cons y ys =>
      simp only [List.zip_cons_cons, List.countP_cons]
      rw [ih ys (by simpa using h)]

/-- Counting by a property of the second components of a zip is counting on
the second list (when the first list is at least as long). -/
theorem countP_zip_snd (a b : List Nat) (p : Nat → Bool)
    (h : b.length ≤ a.length) :
    (a.zip b).countP (fun yp => p yp.2) = b.countP p := by
  induction a generalizing b with
  | nil =>
    cases b with
    | nil => simp
    | cons y ys => simp at h
  | cons x xs ih =>
    cases b with
    | nil => simp
    | cons y ys =>
      simp only [List.zip_cons_cons, List.countP_cons]
      rw [ih ys (by simpa using h)]

/-- C2: `confusion_matrix` computes the argmax contingency table: for class
indices `i, j` below `c`, entry `(i, j)` is the number of sample indices
`k` with `y_true[k] = i` and `pred_class[k] = j`, where `pred_class` is the
argmax of `probs` along dimension 1. -/
theorem confusion_matrix_entry_counts (ci : ClassificationInterpretation)
    (hlen : ci.probs.length = ci.y_true.length) (i j : Nat)
    (_hi : i < ci.data.c) (_hj : j < ci.data.c) :
    ci.confusion_matrix i j =
      ((Finset.range ci.y_true.length).filter
        (fun k => ci.y_true.getD k 0 = i ∧ ci.pred_class.getD k 0 = j)).card := by
  have hplen : ci.pred_class.length = ci.y_true.length := by
    simp [ClassificationInterpretation.pred_class, hlen]
  have hzlen : (ci.y_true.zip ci.pred_class).length = ci.y_true.length := by
    simp [List.length_zip, hplen]
  unfold ClassificationInterpretation.confusion_matrix
  rw [confusion_foldl_entry,
    countP_eq_card_filter_range (ci.y_true.zip ci.pred_class) _ (0, 0), hzlen]
  rw [Nat.zero_add]
  apply congrArg Finset.card
  apply Finset.filter_congr
  intro k hk
  rw [Finset.mem_range] at hk
  rw [zip_getD_lt _ _ _ (by rw [hzlen]; exact hk)]
  simp

/-- C2, witness: the theorem evaluated at the concrete interpretation with
labels `[0, 1, 1]` and predictions `[0, 1, 1]`: entry `(1, 1)` counts the
two samples with true label `1` predicted as `1`. -/
theorem confusion_matrix_entry_counts_eval :
    interpEx.confusion_matrix 1 1 =
      ((Finset.range interpEx.y_true.length).filter
        (fun k => interpEx.y_true.getD k 0 = 1 ∧
          interpEx.pred_class.getD k 0 = 1)).card ∧
    interpEx.confusion_matrix 1 1 = 2 :=
  ⟨confusion_matrix_entry_counts interpEx rfl 1 1 (by decide) (by decide),
   by decide⟩

/-- C1: when every true label and every argmax prediction lies in
`0..c-1`, row `i` of the confusion matrix sums to the number of samples
with true label `i` and column `j` sums to the number of samples with
predicted class `j`. -/
theorem confusion_matrix_marginals (ci : ClassificationInterpretation)
    (hlen : ci.probs.length = ci.y_true.length)
    (hy : ∀ y ∈ ci.y_true, y < ci.data.c)
    (hp : ∀ q ∈ ci.pred_class, q < ci.data.c) :
    (∀ i < ci.data.c,
      rowSum ci.confusion_matrix ci.data.c i = ci.y_true.count i) ∧
    (∀ j < ci.data.c,
      colSum ci.confusion_matrix ci.data.c j = ci.pred_class.count j) := by
  have hplen : ci.pred_class.length = ci.y_true.length := by
    simp [ClassificationInterpretation.pred_class, hlen]
  constructor
  · intro i _
    unfold rowSum ClassificationInterpretation.confusion_matrix
    calc ∑ j ∈ Finset.range ci.data.c,
          ((ci.y_true.zip ci.pred_class).foldl
            (fun cm yp a b => cm a b + cmSliceEntry yp.1 yp.2 a b)
            (fun _ _ => 0)) i j
        = ∑ j ∈ Finset.range ci.data.c,
            (ci.y_true.zip ci.pred_class).countP
              (fun yp => decide (yp.1 = i ∧ yp.2 = j)) := by
          apply Finset.sum_congr rfl
          intro j _
          rw [confusion_foldl_entry, Nat.zero_add]
      _ = (ci.y_true.zip ci.pred_class).countP
            (fun yp => decide (yp.1 = i ∧ yp.2 < ci.data.c)) :=
          countP_sum_snd _ _ _
      _ = (ci.y_true.zip ci.pred_class).countP
            (fun yp => decide (yp.1 = i)) := by
          apply List.countP_congr
          intro yp hyp
          have h2 : yp.2 < ci.data.c := by
            rcases yp with ⟨y, q⟩
            exact hp q (List.of_mem_zip hyp).2
          simp [h2]
      _ = ci.y_true.countP (fun y => decide (y = i)) :=
          countP_zip_fst ci.y_true ci.pred_class (fun y => decide (y = i))
            (le_of_eq hplen.symm)
      _ = ci.y_true.count i := by
          rw [List.count]
          apply List.countP_congr
          intro y _
          simp [beq_iff_eq]
  · intro j _
    unfold colSum ClassificationInterpretation.confusion_matrix
    calc ∑ t ∈ Finset.range ci.data.c,
          ((ci.y_true.zip ci.pred_class).foldl
            (fun cm yp a b => cm a b + cmSliceEntry yp.1 yp.2 a b)
            (fun _ _ => 0)) t j
        = ∑ t ∈ Finset.range ci.data.c,
            (ci.y_true.zip ci.pred_class).countP
              (fun yp => decide (yp.1 = t ∧ yp.2 = j)) := by
          apply Finset.sum_congr rfl
          intro t _
          rw [confusion_foldl_entry, Nat.zero_add]
      _ = (ci.y_true.zip ci.pred_class).countP
            (fun yp => decide (yp.1 < ci.data.c ∧ yp.2 = j)) :=
          countP_sum_fst _ _ _
      _ = (ci.y_true.zip ci.pred_class).countP
            (fun yp => decide (yp.2 = j)) := by
          apply List.countP_congr
          intro yp hyp
          have h1 : yp.1 < ci.data.c := by
            rcases yp with ⟨y, q⟩
            exact hy y (List.of_mem_zip hyp).1
          simp [h1]
      _ = ci.pred_class.countP (fun q => decide (q = j)) :=
          countP_zip_snd ci.y_true ci.pred_class (fun q => decide (q = j))
            (le_of_eq hplen)
      _ = ci.pred_class.count j := by
          rw [List.count]
          apply List.countP_congr
          intro q _
          simp [beq_iff_eq]

/-- C1, witness: the theorem evaluated at the concrete interpretation with
labels `[0, 1, 1]` and predictions `[0, 1, 1]`. -/
theorem confusion_matrix_marginals_eval :
    rowSum interpEx.confusion_matrix interpEx.data.c 1 =
      interpEx.y_true.count 1 ∧
    colSum interpEx.confusion_matrix interpEx.data.c 0 =
      interpEx.pred_class.count 0 :=
  ⟨(confusion_matrix_marginals interpEx rfl (by decide) (by decide)).1 1
      (by decide),
   (confusion_matrix_marginals interpEx rfl (by decide) (by decide)).2 0
      (by decide)⟩

/-- C8, counterexample: with a negative `min_val` the zeroed diagonal
passes the `cm > min_val` test, so a diagonal pair appears in the result —
refuting the claim for arbitrary `min_val`. -/
theorem most_confused_includes_diagonal :
    (0, 0, 0) ∈ interpEx.most_confused (-1) := by decide

/-- C8, amended (`min_val ≥ 0`, as the default `0` and any meaningful count
threshold satisfy): `most_confused` returns exactly the off-diagonal
confusion-matrix entries strictly greater than `min_val`, as triples
`(true class, predicted class, count)` sorted descending by count, and no
diagonal pair appears. -/
theorem most_confused_characterization (ci : ClassificationInterpretation)
    (min_val : Int) (hmv : 0 ≤ min_val) :
    List.Pairwise (fun a b : Nat × Nat × Nat => b.2.2 ≤ a.2.2)
      (ci.most_confused min_val) ∧
    (∀ i j n : Nat, (i, j, n) ∈ ci.most_confused min_val ↔
      (i ≠ j ∧ i < ci.data.c ∧ j < ci.data.c ∧
        n = ci.confusion_matrix i j ∧ min_val < (n : Int))) := by
  constructor
  · exact List.sorted_insertionSort sortKeyGE _
  · intro i j n
    unfold ClassificationInterpretation.most_confused
    rw [List.Perm.mem_iff (List.perm_insertionSort sortKeyGE _)]
    simp only [List.mem_flatMap, List.mem_filterMap, List.mem_range]
    constructor
    · rintro ⟨a, ha, b, hb, hcond⟩
      by_cases hab : (if a = b then 0
          else ci.confusion_matrix a b : Nat) > min_val
      · rw [if_pos hab] at hcond
        simp only [Option.some.injEq, Prod.mk.injEq] at hcond
        obtain ⟨rfl, rfl, rfl⟩ := hcond
        by_cases hd : a = b
        · rw [if_pos hd] at hab
          norm_num at hab
          exact absurd hmv (by omega)
        · rw [if_neg hd] at hab ⊢
          exact ⟨hd, ha, hb, rfl, hab⟩
      · rw [if_neg hab] at hcond
        exact absurd hcond (by simp)
    · rintro ⟨hne, hi, hj, hn, hgt⟩
      refine ⟨i, hi, j, hj, ?_⟩
      rw [if_neg hne]
      rw [if_pos (by rw [hn] at hgt; exact hgt)]
      rw [← hn]

/-- C8, witness: the amended theorem evaluated at the interpretation with
one misclassification (`min_val = 0`): the pair `(0, 1)` with count `1` is
reported. -/
theorem most_confused_characterization_eval :
    List.Pairwise (fun a b : Nat × Nat × Nat => b.2.2 ≤ a.2.2)
      (interpEx2.most_confused 0) ∧
    ((0, 1, 1) ∈ interpEx2.most_confused 0 ↔
      (0 ≠ 1 ∧ 0 < interpEx2.data.c ∧ 1 < interpEx2.data.c ∧
        1 = interpEx2.confusion_matrix 0 1 ∧ (0 : Int) < ((1 : Nat) : Int))) :=
  ⟨(most_confused_characterization interpEx2 0 (by decide)).1,
   (most_confused_characterization interpEx2 0 (by decide)).2 0 1 1⟩

end FastaiTrain
